import Mathlib

/-!
Verification of `color_assignment_v3.py` (Eiad93/color-assigner).

Shallow embedding of the `ColorAssigner` class and proofs of the spec's
claims about it.

Modelling decisions:
* A Python `dict` is an insertion-ordered association list `List (α × β)`
  with unique keys.  `d[k] = v` updates the existing entry in place when
  the key is present and appends otherwise; `del d[k]` removes the entry;
  `k in d` / `d[k]` are `Dict.hasKey` / `Dict.get?`.
* Wall-clock time (`time()`) is passed in explicitly as a rational `now`;
  colors (3-tuples of floats in [0,1]) are triples of rationals.
* A Python crash that the source does not catch (`KeyError` from
  `self._compound_to_color[compound]`, `IndexError` from
  `_palette[color_index]`) is modelled by `Option.none` at the outermost
  level; the caught `ValueError` → `NoAvailableColors` path is modelled by
  `Except.error`.  Raising an exception still leaves the object with all
  mutations applied before the raise, so the operations return the
  post-call state alongside the `Except` result.
-/

/-- A color: 3-tuple of channel values (floats in the source, rationals here). -/
abbrev Color := ℚ × ℚ × ℚ

/-- Constant `TIMEOUT_SEC = 1.0`, the module-level expiry timeout. -/
def TIMEOUT_SEC : ℚ := 1

/-- The module-level `_palette` list of five colors:
`(0.9, 0.0, 0.04), (0.54, 0.16, 0.8), (1.0, 0.48, 0.0),
(0.94, 0.29, 0.75), (0.1, 0.78, 0.21)`, written as the exact rationals
those decimal literals denote (in lowest terms, via the `Rat` constructor
so that they evaluate definitionally). -/
def modulePalette : List Color :=
  [(Rat.mk' 9 10, 0, Rat.mk' 1 25),
   (Rat.mk' 27 50, Rat.mk' 4 25, Rat.mk' 4 5),
   (1, Rat.mk' 12 25, 0),
   (Rat.mk' 47 50, Rat.mk' 29 100, Rat.mk' 3 4),
   (Rat.mk' 1 10, Rat.mk' 39 50, Rat.mk' 21 100)]

/-- Message of the `NoAvailableColors` exception raised on exhaustion. -/
def noAvailableColorsMsg : String := "All pallete colors are currently assigned"

/-- Insertion-ordered association list: the embedding of a Python `dict`. -/
abbrev Dict (α β : Type) := List (α × β)

namespace Dict

variable {α β : Type} [DecidableEq α]

/-- Lookup `d[k]` as an `Option`: value of the first (unique) entry with key `k`. -/
def get? (d : Dict α β) (k : α) : Option β :=
  (d.find? (fun p => decide (p.1 = k))).map Prod.snd

/-- Membership test `k in d`. -/
def hasKey (d : Dict α β) (k : α) : Bool :=
  d.any (fun p => decide (p.1 = k))

/-- Assignment `d[k] = v`: update in place when the key exists, append otherwise
(the update rule of an insertion-ordered Python dict). -/
def set (d : Dict α β) (k : α) (v : β) : Dict α β :=
  if Dict.hasKey d k then d.map (fun p => if p.1 = k then (k, v) else p)
  else d ++ [(k, v)]

/-- Deletion `del d[k]`. -/
def erase (d : Dict α β) (k : α) : Dict α β :=
  d.filter (fun p => decide (p.1 ≠ k))

/-- Key view `d.keys()` (insertion order). -/
def keys (d : Dict α β) : List α := d.map Prod.fst

/-- Value view `d.values()` (insertion order). -/
def values (d : Dict α β) : List β := d.map Prod.snd

end Dict

/-- Python's `list(bs).index(True)`: index of the first `true`,
`none` standing for the raised `ValueError`. -/
def listIndexTrue : List Bool → Option Nat
  | [] => none
  | b :: rest => if b then some 0 else (listIndexTrue rest).map (· + 1)

/-- The state of a `ColorAssigner` object (its four instance attributes,
field names kept from the source, including the `_color_avaliable` typo). -/
structure ColorAssigner where
  stored_palette : List Color
  compound_to_color : Dict String Color
  compound_last_used : Dict String ℚ
  color_avaliable : Dict Color Bool
  deriving DecidableEq, Repr

namespace ColorAssigner

/-- Constructor `ColorAssigner.__init__(palette)`.  Note the source's slip: the
parameter is stored in `self._palette` but `self._color_avaliable` is
built from the module-level `_palette`, not from the parameter. -/
def init (palette : List Color) : ColorAssigner :=
  { stored_palette := palette
    compound_to_color := []
    compound_last_used := []
    color_avaliable := modulePalette.foldl (fun d c => Dict.set d c true) [] }

/-- The `expired_compound_assignemnt` list built by the sweep loop of
`get_compound_to_color_assignments`: compounds whose elapsed time since
last use strictly exceeds `TIMEOUT_SEC`, in dict iteration order. -/
def expiredCompounds (s : ColorAssigner) (now : ℚ) : List String :=
  (s.compound_last_used.filter (fun p => decide (now - p.2 > TIMEOUT_SEC))).map Prod.fst

/-- Method `get_compound_to_color_assignments(self)`.  Sweeps expired
assignments (marking their colors available, then deleting both dict
entries) and returns the surviving `_compound_to_color` dict together
with the mutated state.  `none` models the `KeyError` crash when an
expired compound has a timestamp but no color entry. -/
def get_compound_to_color_assignments (s : ColorAssigner) (now : ℚ) :
    Option (Dict String Color × ColorAssigner) :=
  let expired := s.expiredCompounds now
  match expired.foldlM
      (fun av c => (Dict.get? s.compound_to_color c).map (fun color => Dict.set av color true))
      s.color_avaliable with
  | none => none
  | some avail =>
    let last_used := expired.foldl Dict.erase s.compound_last_used
    let to_color := expired.foldl Dict.erase s.compound_to_color
    some (to_color,
      { s with color_avaliable := avail
               compound_last_used := last_used
               compound_to_color := to_color })

/-- The `if`/`else` decision block of `color_for_compound`, acting on the
post-sweep state `s1` and the dict `assignments` the sweep returned:
either refresh the existing assignment of `compound`, or allocate the
first available palette color, or raise `NoAvailableColors`. -/
def colorDecision (s1 : ColorAssigner) (assignments : Dict String Color)
    (now : ℚ) (compound : String) :
    Option (Except String Color × ColorAssigner) :=
  match Dict.get? assignments compound with
  | some color =>
    some (Except.ok color,
      { s1 with compound_last_used := Dict.set s1.compound_last_used compound now })
  | none =>
    match listIndexTrue (Dict.values s1.color_avaliable) with
    | none => some (Except.error noAvailableColorsMsg, s1)
    | some color_index =>
      match modulePalette.get? color_index with
      | none => none
      | some color =>
        some (Except.ok color,
          { s1 with
              color_avaliable := Dict.set s1.color_avaliable color false
              compound_last_used := Dict.set s1.compound_last_used compound now
              compound_to_color := Dict.set s1.compound_to_color compound color })

/-- Method `color_for_compound(self, compound)` at wall-clock time `now`.
Returns the `Except` outcome (color, or the `NoAvailableColors` message)
together with the post-call state; `none` models an uncaught crash. -/
def color_for_compound (s : ColorAssigner) (now : ℚ) (compound : String) :
    Option (Except String Color × ColorAssigner) :=
  match s.get_compound_to_color_assignments now with
  | none => none
  | some (assignments, s1) => colorDecision s1 assignments now compound

end ColorAssigner

/-- Sequential calls: run `color_for_compound` once per `(time, label)`
pair, collecting the outcomes (crash propagates as `none`). -/
def colorForRun (s : ColorAssigner) :
    List (ℚ × String) → Option (List (Except String Color) × ColorAssigner)
  | [] => some ([], s)
  | call :: rest =>
    match s.color_for_compound call.1 call.2 with
    | none => none
    | some (r, s') => (colorForRun s' rest).map (fun p => (r :: p.1, p.2))

/-- The assigner state reached from `ColorAssigner.init modulePalette` after
fresh allocations for the labels of `pre` (label `pre[j].2` allocated at time
`pre[j].1` and holding `modulePalette[j]`), with no expiry in between. -/
def stage (pre : List (ℚ × String)) : ColorAssigner :=
  { stored_palette := modulePalette
    compound_to_color := (pre.map Prod.snd).zip (modulePalette.take pre.length)
    compound_last_used := pre.map (fun c => (c.2, c.1))
    color_avaliable :=
      (modulePalette.take pre.length).map (fun c => (c, false)) ++
      (modulePalette.drop pre.length).map (fun c => (c, true)) }

/-- The state invariants of a reachable `ColorAssigner`, in a form that is
decidable on concrete states:
1. the availability dict is keyed by exactly the module palette, in order;
2. `_compound_to_color` and `_compound_last_used` have the same keys (an
   assignment exists iff a last-used timestamp exists);
3. the assignment keys are duplicate-free;
4. every assigned color is a palette color;
5. a color is available iff no compound is assigned to it (hence
   unavailable iff some — and by 6 exactly one — compound holds it);
6. no two distinct compounds are assigned the same color. -/
def StateInv (s : ColorAssigner) : Prop :=
  Dict.keys s.color_avaliable = modulePalette ∧
  Dict.keys s.compound_to_color = Dict.keys s.compound_last_used ∧
  (Dict.keys s.compound_to_color).Nodup ∧
  (∀ p ∈ s.compound_to_color, p.2 ∈ modulePalette) ∧
  (∀ p ∈ s.color_avaliable, p.2 = true ↔ ∀ q ∈ s.compound_to_color, q.2 ≠ p.1) ∧
  (∀ p ∈ s.compound_to_color, ∀ q ∈ s.compound_to_color, p.2 = q.2 → p.1 = q.1)

instance (s : ColorAssigner) : Decidable (StateInv s) := by
  unfold StateInv; infer_instance

instance : DecidableEq (Except String Color) := fun a b =>
  match a, b with
  | .error x, .error y =>
    if h : x = y then .isTrue (by rw [h]) else .isFalse (by simp [h])
  | .ok x, .ok y =>
    if h : x = y then .isTrue (by rw [h]) else .isFalse (by simp [h])
  | .error _, .ok _ => .isFalse (by simp)
  | .ok _, .error _ => .isFalse (by simp)

/-- The invariants exactly as the spec words them, phrased through dict
lookups: same lifecycle for assignment and timestamp, availability
mirrors being held by exactly one (respectively no) live compound, and
no color is shared. -/
def ClaimInvariants (s : ColorAssigner) : Prop :=
  (∀ c : String,
    (Dict.get? s.compound_to_color c).isSome ↔ (Dict.get? s.compound_last_used c).isSome) ∧
  (∀ col ∈ modulePalette,
    (Dict.get? s.color_avaliable col = some false ↔
      ∃! c : String, Dict.get? s.compound_to_color c = some col) ∧
    (Dict.get? s.color_avaliable col = some true ↔
      ∀ c : String, Dict.get? s.compound_to_color c ≠ some col)) ∧
  (∀ c₁ c₂ : String, ∀ col : Color,
    Dict.get? s.compound_to_color c₁ = some col →
    Dict.get? s.compound_to_color c₂ = some col → c₁ = c₂)

/-! Association-list (Python dict) lemmas. -/

namespace Dict

variable {α β : Type} [DecidableEq α]

@[simp] theorem get?_nil (k : α) : Dict.get? ([] : Dict α β) k = none := rfl

theorem get?_cons (p : α × β) (d : Dict α β) (k : α) :
    Dict.get? (p :: d) k = if p.1 = k then some p.2 else Dict.get? d k := by
  by_cases h : p.1 = k <;> simp [Dict.get?, List.find?_cons, h]

@[simp] theorem hasKey_nil (k : α) : Dict.hasKey ([] : Dict α β) k = false := rfl

theorem hasKey_iff_mem (d : Dict α β) (k : α) :
    Dict.hasKey d k = true ↔ k ∈ Dict.keys d := by
  simp [Dict.hasKey, Dict.keys, List.any_eq_true]

theorem hasKey_eq_false_iff (d : Dict α β) (k : α) :
    Dict.hasKey d k = false ↔ k ∉ Dict.keys d := by
  rw [← hasKey_iff_mem]
  cases h : Dict.hasKey d k <;> simp [h]

theorem get?_isSome_iff_mem_keys (d : Dict α β) (k : α) :
    (Dict.get? d k).isSome ↔ k ∈ Dict.keys d := by
  induction d with
  | nil => simp [Dict.keys]
  | cons p d ih =>
    rw [get?_cons]
    by_cases h : p.1 = k
    · simp [h, Dict.keys]
    · have h' : ¬k = p.1 := fun he => h he.symm
      rw [if_neg h]
      simp [Dict.keys, List.mem_cons, h', ih, Dict.keys]

theorem get?_eq_none_iff (d : Dict α β) (k : α) :
    Dict.get? d k = none ↔ k ∉ Dict.keys d := by
  rw [← get?_isSome_iff_mem_keys]
  cases h : Dict.get? d k <;> simp [h]

theorem get?_mem {d : Dict α β} {k : α} {v : β} (h : Dict.get? d k = some v) :
    (k, v) ∈ d := by
  induction d with
  | nil => simp at h
  | cons p d ih =>
    rw [get?_cons] at h
    by_cases hp : p.1 = k
    · rw [if_pos hp] at h
      obtain ⟨a, b⟩ := p
      cases hp
      cases Option.some.inj h
      exact List.mem_cons_self _ _
    · rw [if_neg hp] at h
      exact List.mem_cons_of_mem _ (ih h)

theorem get?_of_mem_nodup {d : Dict α β} {k : α} {v : β}
    (hnd : (Dict.keys d).Nodup) (h : (k, v) ∈ d) : Dict.get? d k = some v := by
  induction d with
  | nil => simp at h
  | cons p d ih =>
    simp only [Dict.keys, List.map_cons, List.nodup_cons] at hnd
    rcases List.mem_cons.mp h with h | h
    · rw [← h, get?_cons, if_pos rfl]
    · rw [get?_cons]
      have hk : k ∈ Dict.keys d := List.mem_map.mpr ⟨(k, v), h, rfl⟩
      have hne : p.1 ≠ k := fun he => hnd.1 (he ▸ hk)
      rw [if_neg hne]
      exact ih hnd.2 h

theorem keys_map_upd (d : Dict α β) (k : α) (v : β) :
    Dict.keys (d.map (fun p => if p.1 = k then (k, v) else p)) = Dict.keys d := by
  induction d with
  | nil => rfl
  | cons p d ih =>
    simp only [Dict.keys, List.map_cons] at ih ⊢
    by_cases h : p.1 = k
    · rw [if_pos h, ih, h]
    · rw [if_neg h, ih]

theorem get?_map_upd_self {d : Dict α β} {k : α} (v : β) (h : Dict.hasKey d k = true) :
    Dict.get? (d.map (fun p => if p.1 = k then (k, v) else p)) k = some v := by
  induction d with
  | nil => simp at h
  | cons p d ih =>
    by_cases hp : p.1 = k
    · simp only [List.map_cons, if_pos hp]
      rw [get?_cons, if_pos rfl]
    · simp only [List.map_cons, if_neg hp]
      rw [get?_cons, if_neg hp]
      have h' : Dict.hasKey d k = true := by
        simp [Dict.hasKey, List.any_cons, hp] at h
        simpa [Dict.hasKey, List.any_eq_true] using h
      exact ih h'

theorem get?_map_upd_ne (d : Dict α β) (k : α) (v : β) {q : α} (hq : q ≠ k) :
    Dict.get? (d.map (fun p => if p.1 = k then (k, v) else p)) q = Dict.get? d q := by
  induction d with
  | nil => rfl
  | cons p d ih =>
    by_cases hp : p.1 = k
    · simp only [List.map_cons, if_pos hp]
      rw [get?_cons, if_neg (fun he => hq he.symm), get?_cons,
        if_neg (fun he => hq (hp ▸ he).symm)]
      exact ih
    · simp only [List.map_cons, if_neg hp]
      rw [get?_cons, get?_cons]
      by_cases hpq : p.1 = q
      · rw [if_pos hpq, if_pos hpq]
      · rw [if_neg hpq, if_neg hpq]
        exact ih

theorem get?_append (d₁ d₂ : Dict α β) (k : α) :
    Dict.get? (d₁ ++ d₂) k =
      match Dict.get? d₁ k with
      | some v => some v
      | none => Dict.get? d₂ k := by
  induction d₁ with
  | nil => simp
  | cons p d ih =>
    rw [List.cons_append, get?_cons, get?_cons]
    by_cases h : p.1 = k <;> simp [h, ih]

@[simp] theorem get?_set_self (d : Dict α β) (k : α) (v : β) :
    Dict.get? (Dict.set d k v) k = some v := by
  unfold Dict.set
  by_cases h : Dict.hasKey d k
  · rw [if_pos h]
    exact get?_map_upd_self v h
  · rw [if_neg h, get?_append]
    have hn : Dict.get? d k = none := by
      rw [get?_eq_none_iff]
      exact (hasKey_eq_false_iff d k).mp (by simpa using h)
    rw [hn, get?_cons, if_pos rfl]

theorem get?_set_ne (d : Dict α β) (k : α) (v : β) {q : α} (hq : q ≠ k) :
    Dict.get? (Dict.set d k v) q = Dict.get? d q := by
  unfold Dict.set
  by_cases h : Dict.hasKey d k
  · rw [if_pos h]
    exact get?_map_upd_ne d k v hq
  · rw [if_neg h, get?_append]
    have h2 : Dict.get? [(k, v)] q = none := by
      rw [get?_cons, if_neg (fun he => hq he.symm)]
      rfl
    rw [h2]
    cases Dict.get? d q <;> rfl

theorem keys_set_of_hasKey (d : Dict α β) (k : α) (v : β) (h : Dict.hasKey d k = true) :
    Dict.keys (Dict.set d k v) = Dict.keys d := by
  unfold Dict.set
  rw [if_pos h]
  exact keys_map_upd d k v

theorem keys_set_of_not_hasKey (d : Dict α β) (k : α) (v : β)
    (h : Dict.hasKey d k = false) :
    Dict.keys (Dict.set d k v) = Dict.keys d ++ [k] := by
  unfold Dict.set
  rw [if_neg (by simp [h]), Dict.keys, List.map_append]
  rfl

theorem nodup_keys_set (d : Dict α β) (k : α) (v : β) (h : (Dict.keys d).Nodup) :
    (Dict.keys (Dict.set d k v)).Nodup := by
  by_cases hk : Dict.hasKey d k
  · rw [keys_set_of_hasKey d k v hk]
    exact h
  · rw [keys_set_of_not_hasKey d k v (by simpa using hk)]
    have hm : k ∉ Dict.keys d := (hasKey_eq_false_iff d k).mp (by simpa using hk)
    simp [List.nodup_append, h, hm]

theorem mem_of_mem_set {d : Dict α β} {k : α} {v : β} {p : α × β}
    (h : p ∈ Dict.set d k v) : p = (k, v) ∨ (p ∈ d ∧ p.1 ≠ k) := by
  unfold Dict.set at h
  by_cases hk : Dict.hasKey d k
  · rw [if_pos hk] at h
    rcases List.mem_map.mp h with ⟨q, hq, he⟩
    by_cases hqk : q.1 = k
    · left
      rw [← he, if_pos hqk]
    · right
      rw [← he, if_neg hqk]
      exact ⟨hq, hqk⟩
  · rw [if_neg hk] at h
    rcases List.mem_append.mp h with h | h
    · right
      refine ⟨h, fun he => ?_⟩
      have hm : k ∈ Dict.keys d := List.mem_map.mpr ⟨p, h, he⟩
      exact (hasKey_eq_false_iff d k).mp (by simpa using hk) hm
    · left
      simpa using h

theorem mem_set_of_mem {d : Dict α β} {k : α} {v : β} {p : α × β}
    (h : p ∈ d) (hne : p.1 ≠ k) : p ∈ Dict.set d k v := by
  unfold Dict.set
  by_cases hk : Dict.hasKey d k
  · rw [if_pos hk]
    refine List.mem_map.mpr ⟨p, h, ?_⟩
    rw [if_neg hne]
  · rw [if_neg hk]
    exact List.mem_append_left _ h

theorem mem_set_self (d : Dict α β) (k : α) (v : β) : (k, v) ∈ Dict.set d k v :=
  get?_mem (get?_set_self d k v)

theorem mem_erase_iff {d : Dict α β} {k : α} {p : α × β} :
    p ∈ Dict.erase d k ↔ p ∈ d ∧ p.1 ≠ k := by
  simp [Dict.erase, List.mem_filter]

theorem keys_erase (d : Dict α β) (k : α) :
    Dict.keys (Dict.erase d k) = (Dict.keys d).filter (fun x => decide (x ≠ k)) := by
  unfold Dict.erase Dict.keys
  induction d with
  | nil => rfl
  | cons p d ih =>
    simp only [List.filter_cons, List.map_cons]
    by_cases h : p.1 = k
    · rw [show (decide (p.1 ≠ k)) = false by simp [h], if_neg Bool.false_ne_true,
        if_neg Bool.false_ne_true]
      exact ih
    · rw [show (decide (p.1 ≠ k)) = true by simpa using h, if_pos rfl, if_pos rfl,
        List.map_cons, ih]

theorem get?_erase_self (d : Dict α β) (k : α) : Dict.get? (Dict.erase d k) k = none := by
  rw [get?_eq_none_iff, keys_erase]
  simp [List.mem_filter]

theorem get?_erase_ne (d : Dict α β) (k : α) {q : α} (hq : q ≠ k) :
    Dict.get? (Dict.erase d k) q = Dict.get? d q := by
  unfold Dict.erase
  induction d with
  | nil => rfl
  | cons p d ih =>
    simp only [List.filter_cons]
    by_cases h : p.1 = k
    · have hne : p.1 ≠ q := fun he => hq (he ▸ h)
      rw [show (decide (p.1 ≠ k)) = false by simp [h], if_neg Bool.false_ne_true, ih,
        get?_cons, if_neg hne]
    · rw [show (decide (p.1 ≠ k)) = true by simpa using h, if_pos rfl, get?_cons, get?_cons]
      by_cases hpq : p.1 = q
      · rw [if_pos hpq, if_pos hpq]
      · rw [if_neg hpq, if_neg hpq]
        exact ih

theorem get?_foldl_erase (E : List α) (d : Dict α β) (k : α) :
    Dict.get? (E.foldl Dict.erase d) k = if k ∈ E then none else Dict.get? d k := by
  induction E generalizing d with
  | nil => simp
  | cons e E ih =>
    rw [List.foldl_cons, ih]
    by_cases hE : k ∈ E
    · simp [hE]
    · by_cases hke : k = e
      · simp [hE, hke, get?_erase_self]
      · simp [hE, hke, get?_erase_ne d e hke]

theorem keys_foldl_erase (E : List α) (d : Dict α β) :
    Dict.keys (E.foldl Dict.erase d) = (Dict.keys d).filter (fun x => decide (x ∉ E)) := by
  induction E generalizing d with
  | nil => simp
  | cons e E ih =>
    rw [List.foldl_cons, ih, keys_erase, List.filter_filter]
    refine List.filter_congr (fun x _ => ?_)
    by_cases hxe : x = e <;> by_cases hxE : x ∈ E <;> simp [hxe, hxE]

theorem mem_foldl_erase {E : List α} {d : Dict α β} {p : α × β} :
    p ∈ E.foldl Dict.erase d ↔ p ∈ d ∧ p.1 ∉ E := by
  induction E generalizing d with
  | nil => simp
  | cons e E ih =>
    rw [List.foldl_cons, ih, mem_erase_iff]
    constructor
    · rintro ⟨⟨h1, h2⟩, h3⟩
      exact ⟨h1, by simp [h2, h3]⟩
    · rintro ⟨h1, h2⟩
      simp only [List.mem_cons, not_or] at h2
      exact ⟨⟨h1, h2.1⟩, h2.2⟩

theorem nodup_keys_foldl_erase (E : List α) (d : Dict α β) (h : (Dict.keys d).Nodup) :
    (Dict.keys (E.foldl Dict.erase d)).Nodup := by
  rw [keys_foldl_erase]
  exact h.filter _

end Dict

/-! Lemmas about `listIndexTrue`. -/

theorem listIndexTrue_spec :
    ∀ {l : List Bool} {i : Nat}, listIndexTrue l = some i →
      i < l.length ∧ l.get? i = some true ∧ ∀ j < i, l.get? j = some false := by
  intro l
  induction l with
  | nil => intro i h; simp [listIndexTrue] at h
  | cons b rest ih =>
    intro i h
    by_cases hb : b
    · rw [show listIndexTrue (b :: rest) = some 0 by simp [listIndexTrue, hb]] at h
      cases Option.some.inj h
      refine ⟨by simp, by simp [hb], fun j hj => absurd hj (by omega)⟩
    · rw [show listIndexTrue (b :: rest) = (listIndexTrue rest).map (· + 1) by
        simp [listIndexTrue, hb]] at h
      rcases Option.map_eq_some'.mp h with ⟨i', hi', he⟩
      rcases ih hi' with ⟨h1, h2, h3⟩
      subst he
      refine ⟨by simpa using h1, by simpa using h2, ?_⟩
      intro j hj
      cases j with
      | zero => simpa using (Bool.not_eq_true b).mp hb
      | succ j' => simpa using h3 j' (by omega)

theorem listIndexTrue_eq_none {l : List Bool} :
    listIndexTrue l = none ↔ ∀ b ∈ l, b = false := by
  induction l with
  | nil => simp [listIndexTrue]
  | cons b rest ih =>
    by_cases hb : b
    · simp [listIndexTrue, hb]
    · simp [listIndexTrue, hb, ih, (Bool.not_eq_true b).mp hb]

theorem listIndexTrue_replicate_append (i : Nat) (rest : List Bool) :
    listIndexTrue (List.replicate i false ++ true :: rest) = some i := by
  induction i with
  | zero => simp [listIndexTrue]
  | succ i ih => simp [List.replicate_succ, listIndexTrue, ih]

/-! Sweep characterization. -/

namespace ColorAssigner

/-- Membership in the sweep's expired list, for duplicate-free timestamps. -/
theorem mem_expiredCompounds {s : ColorAssigner} {now : ℚ} {c : String}
    (hnd : (Dict.keys s.compound_last_used).Nodup) :
    c ∈ s.expiredCompounds now ↔
      ∃ t, Dict.get? s.compound_last_used c = some t ∧ now - t > TIMEOUT_SEC := by
  unfold expiredCompounds
  constructor
  · intro h
    rcases List.mem_map.mp h with ⟨p, hp, he⟩
    rcases List.mem_filter.mp hp with ⟨hmem, hcond⟩
    refine ⟨p.2, ?_, by simpa using hcond⟩
    rw [← he]
    exact Dict.get?_of_mem_nodup hnd (by simpa using hmem)
  · rintro ⟨t, ht, hcond⟩
    refine List.mem_map.mpr ⟨(c, t), List.mem_filter.mpr ⟨Dict.get?_mem ht, by simpa using hcond⟩, rfl⟩

/-- Expired compounds all carry a timestamp. -/
theorem expiredCompounds_subset_keys {s : ColorAssigner} {now : ℚ} {c : String}
    (h : c ∈ s.expiredCompounds now) : c ∈ Dict.keys s.compound_last_used := by
  unfold expiredCompounds at h
  rcases List.mem_map.mp h with ⟨p, hp, he⟩
  exact he ▸ List.mem_map.mpr ⟨p, (List.mem_filter.mp hp).1, rfl⟩

/-- The availability-marking loop of the sweep: it succeeds whenever every
expired compound has a color entry whose color is a key of the
availability dict, and it sets exactly the colors of expired compounds
to available. -/
theorem sweepMark (tc : Dict String Color) (E : List String) (av : Dict Color Bool)
    (h : ∀ c ∈ E, ∃ col, Dict.get? tc c = some col ∧ col ∈ Dict.keys av) :
    ∃ av', E.foldlM (fun a c => (Dict.get? tc c).map (fun color => Dict.set a color true)) av
        = some av' ∧
      Dict.keys av' = Dict.keys av ∧
      (∀ col, (∃ c ∈ E, Dict.get? tc c = some col) → Dict.get? av' col = some true) ∧
      (∀ col, (∀ c ∈ E, Dict.get? tc c ≠ some col) → Dict.get? av' col = Dict.get? av col) := by
  induction E generalizing av with
  | nil =>
    exact ⟨av, rfl, rfl, fun col h => by simp at h, fun col _ => rfl⟩
  | cons c E ih =>
    rcases h c (List.mem_cons_self c E) with ⟨col₀, hc₀, hk₀⟩
    have hstep : (Dict.get? tc c).map (fun color => Dict.set av color true)
        = some (Dict.set av col₀ true) := by
      rw [hc₀]; rfl
    have hkeys₀ : Dict.keys (Dict.set av col₀ true) = Dict.keys av :=
      Dict.keys_set_of_hasKey av col₀ true ((Dict.hasKey_iff_mem av col₀).mpr hk₀)
    rcases ih (Dict.set av col₀ true)
        (fun c' hc' => by
          rcases h c' (List.mem_cons_of_mem c hc') with ⟨col', h1, h2⟩
          exact ⟨col', h1, hkeys₀ ▸ h2⟩) with ⟨av', hrun, hkeys, h1, h2⟩
    refine ⟨av', ?_, hkeys.trans hkeys₀, ?_, ?_⟩
    · rw [List.foldlM_cons, hstep]
      simpa using hrun
    · rintro col ⟨c', hc', hcol⟩
      rcases List.mem_cons.mp hc' with rfl | hc'
      · by_cases hcase : ∃ c'' ∈ E, Dict.get? tc c'' = some col
        · exact h1 col hcase
        · push_neg at hcase
          rw [h2 col hcase]
          have : col = col₀ := Option.some.inj (hcol.symm.trans hc₀)
          rw [this]
          exact Dict.get?_set_self av col₀ true
      · exact h1 col ⟨c', hc', hcol⟩
    · intro col hcol
      have hne : col ≠ col₀ := fun he =>
        hcol c (List.mem_cons_self c E) (he ▸ hc₀)
      rw [h2 col (fun c' hc' => hcol c' (List.mem_cons_of_mem c hc')),
        Dict.get?_set_ne av col₀ true hne]

end ColorAssigner

theorem modulePalette_nodup : modulePalette.Nodup := by decide

namespace ColorAssigner

/-- Full characterization of the expiry sweep on an invariant-satisfying
state: it succeeds, returns the surviving assignment dict, removes exactly
the expired compounds from both dicts, marks exactly the expired
compounds' colors available, and preserves the invariants. -/
theorem sweep_spec (s : ColorAssigner) (now : ℚ) (h : StateInv s) :
    ∃ d s1, s.get_compound_to_color_assignments now = some (d, s1) ∧
      d = s1.compound_to_color ∧
      s1.stored_palette = s.stored_palette ∧
      (∀ c, Dict.get? s1.compound_to_color c =
        if c ∈ s.expiredCompounds now then none else Dict.get? s.compound_to_color c) ∧
      (∀ c, Dict.get? s1.compound_last_used c =
        if c ∈ s.expiredCompounds now then none else Dict.get? s.compound_last_used c) ∧
      (∀ col, (∃ c ∈ s.expiredCompounds now, Dict.get? s.compound_to_color c = some col) →
        Dict.get? s1.color_avaliable col = some true) ∧
      (∀ col, (∀ c ∈ s.expiredCompounds now, Dict.get? s.compound_to_color c ≠ some col) →
        Dict.get? s1.color_avaliable col = Dict.get? s.color_avaliable col) ∧
      StateInv s1 := by
  obtain ⟨hA, hB, hC, hD, hE, hF⟩ := h
  have hCu : (Dict.keys s.compound_last_used).Nodup := hB ▸ hC
  set E := s.expiredCompounds now with hEdef
  have hprecond : ∀ c ∈ E, ∃ col, Dict.get? s.compound_to_color c = some col ∧
      col ∈ Dict.keys s.color_avaliable := by
    intro c hc
    have hk : c ∈ Dict.keys s.compound_last_used := expiredCompounds_subset_keys hc
    have hk2 : c ∈ Dict.keys s.compound_to_color := hB.symm ▸ hk
    rcases Option.isSome_iff_exists.mp
      ((Dict.get?_isSome_iff_mem_keys s.compound_to_color c).mpr hk2) with ⟨col, hcol⟩
    exact ⟨col, hcol, hA.symm ▸ hD _ (Dict.get?_mem hcol)⟩
  rcases sweepMark s.compound_to_color E s.color_avaliable hprecond with
    ⟨av', hrun, hkeys, h1, h2⟩
  refine ⟨E.foldl Dict.erase s.compound_to_color,
    { s with color_avaliable := av'
             compound_last_used := E.foldl Dict.erase s.compound_last_used
             compound_to_color := E.foldl Dict.erase s.compound_to_color },
    ?_, rfl, rfl, ?_, ?_, ?_, ?_, ?_⟩
  · simp only [get_compound_to_color_assignments]
    rw [← hEdef, hrun]
  · intro c
    exact Dict.get?_foldl_erase E s.compound_to_color c
  · intro c
    exact Dict.get?_foldl_erase E s.compound_last_used c
  · exact h1
  · exact h2
  · refine ⟨hkeys.trans hA, ?_, Dict.nodup_keys_foldl_erase E _ hC, ?_, ?_, ?_⟩
    · rw [Dict.keys_foldl_erase, Dict.keys_foldl_erase, hB]
    · intro p hp
      exact hD p (Dict.mem_foldl_erase.mp hp).1
    · intro p hp
      have hAnd : (Dict.keys av').Nodup := by
        rw [hkeys, hA]; exact modulePalette_nodup
      have hget : Dict.get? av' p.1 = some p.2 := Dict.get?_of_mem_nodup hAnd hp
      by_cases hcase : ∃ c ∈ E, Dict.get? s.compound_to_color c = some p.1
      · have hp2 : p.2 = true := Option.some.inj (hget.symm.trans (h1 p.1 hcase))
        constructor
        · intro _ q hq hq2
          rcases hcase with ⟨c, hcE, hcol⟩
          have hqtc : q ∈ s.compound_to_color := (Dict.mem_foldl_erase.mp hq).1
          have hqnE : q.1 ∉ E := (Dict.mem_foldl_erase.mp hq).2
          have hqc : q.1 = c :=
            hF q hqtc (c, p.1) (Dict.get?_mem hcol) (by rw [hq2])
          exact hqnE (hqc ▸ hcE)
        · intro _
          exact hp2
      · push_neg at hcase
        have hsame : Dict.get? av' p.1 = Dict.get? s.color_avaliable p.1 :=
          h2 p.1 hcase
        have hmem : (p.1, p.2) ∈ s.color_avaliable :=
          Dict.get?_mem (hsame.symm.trans hget)
        have hiff := hE (p.1, p.2) hmem
        constructor
        · intro ht q hq
          exact hiff.mp ht q (Dict.mem_foldl_erase.mp hq).1
        · intro hall
          refine hiff.mpr (fun q hq => ?_)
          by_cases hqE : q.1 ∈ E
          · intro hq2
            have hgq : Dict.get? s.compound_to_color q.1 = some q.2 :=
              Dict.get?_of_mem_nodup hC hq
            exact hcase q.1 hqE (by rw [hgq, hq2])
          · exact hall q (Dict.mem_foldl_erase.mpr ⟨hq, hqE⟩)
    · intro p hp q hq
      exact hF p (Dict.mem_foldl_erase.mp hp).1 q (Dict.mem_foldl_erase.mp hq).1

end ColorAssigner

namespace ColorAssigner

/-- Definitionally, `color_for_compound` delegates its decision to `colorDecision` on the
state and dict produced by the sweep. -/
theorem color_for_eq (s : ColorAssigner) (now : ℚ) (cpd : String)
    {d : Dict String Color} {s1 : ColorAssigner}
    (hsw : s.get_compound_to_color_assignments now = some (d, s1)) :
    s.color_for_compound now cpd = colorDecision s1 d now cpd := by
  unfold color_for_compound
  rw [hsw]

theorem colorDecision_found {s1 : ColorAssigner} {d : Dict String Color}
    {now : ℚ} {cpd : String} {col : Color} (hc : Dict.get? d cpd = some col) :
    colorDecision s1 d now cpd = some (Except.ok col,
      { s1 with compound_last_used := Dict.set s1.compound_last_used cpd now }) := by
  unfold colorDecision
  rw [hc]

theorem colorDecision_alloc {s1 : ColorAssigner} {d : Dict String Color}
    {now : ℚ} {cpd : String} {i : Nat} {col : Color}
    (hc : Dict.get? d cpd = none)
    (hidx : listIndexTrue (Dict.values s1.color_avaliable) = some i)
    (hcol : modulePalette.get? i = some col) :
    colorDecision s1 d now cpd = some (Except.ok col,
      { s1 with
          color_avaliable := Dict.set s1.color_avaliable col false
          compound_last_used := Dict.set s1.compound_last_used cpd now
          compound_to_color := Dict.set s1.compound_to_color cpd col }) := by
  simp only [colorDecision, hc, hidx, hcol]

theorem colorDecision_error {s1 : ColorAssigner} {d : Dict String Color}
    {now : ℚ} {cpd : String} (hc : Dict.get? d cpd = none)
    (hidx : listIndexTrue (Dict.values s1.color_avaliable) = none) :
    colorDecision s1 d now cpd = some (Except.error noAvailableColorsMsg, s1) := by
  unfold colorDecision
  rw [hc, hidx]

/-- When the availability values have a first `true` at index `i`, the
palette has a color at index `i`, and that color is recorded available. -/
theorem avail_at_index {s1 : ColorAssigner}
    (hA : Dict.keys s1.color_avaliable = modulePalette)
    {i : Nat} (hidx : listIndexTrue (Dict.values s1.color_avaliable) = some i) :
    ∃ col, modulePalette.get? i = some col ∧
      Dict.get? s1.color_avaliable col = some true ∧ col ∈ modulePalette ∧
      (Dict.values s1.color_avaliable).get? i = some true := by
  rcases listIndexTrue_spec hidx with ⟨-, htrue, -⟩
  have hvals : (List.get? s1.color_avaliable i).map Prod.snd = some true := by
    simpa [Dict.values, List.get?_map] using htrue
  rcases Option.map_eq_some'.mp hvals with ⟨p, hp, hp2⟩
  have hkey : modulePalette.get? i = some p.1 := by
    rw [← hA]
    show List.get? (List.map Prod.fst s1.color_avaliable) i = some p.1
    rw [List.get?_map, hp]
    rfl
  have hnd : (Dict.keys s1.color_avaliable).Nodup := by
    rw [hA]
    exact modulePalette_nodup
  have hmem : p ∈ s1.color_avaliable := List.get?_mem hp
  have hget : Dict.get? s1.color_avaliable p.1 = some true := by
    rw [← hp2]
    exact Dict.get?_of_mem_nodup hnd (by simpa using hmem)
  exact ⟨p.1, hkey, hget, List.get?_mem hkey, htrue⟩

/-- Refreshing the timestamp of a live compound preserves the invariants. -/
theorem StateInv_refresh (s1 : ColorAssigner) (h1 : StateInv s1) (cpd : String) (now : ℚ)
    (hc : cpd ∈ Dict.keys s1.compound_to_color) :
    StateInv { s1 with compound_last_used := Dict.set s1.compound_last_used cpd now } := by
  obtain ⟨hA, hB, hC, hD, hE, hF⟩ := h1
  have hk : Dict.hasKey s1.compound_last_used cpd = true :=
    (Dict.hasKey_iff_mem _ _).mpr (hB ▸ hc)
  exact ⟨hA, by rw [Dict.keys_set_of_hasKey _ _ _ hk]; exact hB, hC, hD, hE, hF⟩

/-- Allocating an available palette color to an unassigned compound
preserves the invariants. -/
theorem StateInv_alloc (s1 : ColorAssigner) (h1 : StateInv s1) (cpd : String) (now : ℚ)
    (col : Color) (hc : Dict.get? s1.compound_to_color cpd = none)
    (hav : Dict.get? s1.color_avaliable col = some true) (hcolP : col ∈ modulePalette) :
    StateInv { s1 with
      color_avaliable := Dict.set s1.color_avaliable col false
      compound_last_used := Dict.set s1.compound_last_used cpd now
      compound_to_color := Dict.set s1.compound_to_color cpd col } := by
  obtain ⟨hA, hB, hC, hD, hE, hF⟩ := h1
  have hnotc : cpd ∉ Dict.keys s1.compound_to_color := (Dict.get?_eq_none_iff _ _).mp hc
  have hktc : Dict.hasKey s1.compound_to_color cpd = false :=
    (Dict.hasKey_eq_false_iff _ _).mpr hnotc
  have hnotl : cpd ∉ Dict.keys s1.compound_last_used := hB ▸ hnotc
  have hklu : Dict.hasKey s1.compound_last_used cpd = false :=
    (Dict.hasKey_eq_false_iff _ _).mpr hnotl
  have hkav : Dict.hasKey s1.color_avaliable col = true :=
    (Dict.hasKey_iff_mem _ _).mpr (hA.symm ▸ hcolP)
  have hnoholder : ∀ q ∈ s1.compound_to_color, q.2 ≠ col := by
    have hmem : (col, true) ∈ s1.color_avaliable := Dict.get?_mem hav
    exact fun q hq => (hE (col, true) hmem).mp rfl q hq
  refine ⟨?_, ?_, ?_, ?_, ?_, ?_⟩
  · rw [show ({ s1 with
        color_avaliable := Dict.set s1.color_avaliable col false
        compound_last_used := Dict.set s1.compound_last_used cpd now
        compound_to_color := Dict.set s1.compound_to_color cpd col } : ColorAssigner).color_avaliable
      = Dict.set s1.color_avaliable col false from rfl,
      Dict.keys_set_of_hasKey _ _ _ hkav]
    exact hA
  · rw [show Dict.keys (Dict.set s1.compound_to_color cpd col)
        = Dict.keys s1.compound_to_color ++ [cpd] from
        Dict.keys_set_of_not_hasKey _ _ _ hktc,
      show Dict.keys (Dict.set s1.compound_last_used cpd now)
        = Dict.keys s1.compound_last_used ++ [cpd] from
        Dict.keys_set_of_not_hasKey _ _ _ hklu,
      hB]
  · rw [show Dict.keys (Dict.set s1.compound_to_color cpd col)
        = Dict.keys s1.compound_to_color ++ [cpd] from
        Dict.keys_set_of_not_hasKey _ _ _ hktc]
    simp [List.nodup_append, hC, hnotc]
  · intro p hp
    rcases Dict.mem_of_mem_set hp with rfl | ⟨hp', -⟩
    · exact hcolP
    · exact hD p hp'
  · intro p hp
    rcases Dict.mem_of_mem_set hp with rfl | ⟨hp', hpne⟩
    · constructor
      · intro habs
        simp at habs
      · intro hall
        exact absurd rfl (hall (cpd, col) (Dict.mem_set_self _ _ _))
    · have hiff := hE p hp'
      constructor
      · intro ht q hq
        rcases Dict.mem_of_mem_set hq with rfl | ⟨hq', -⟩
        · exact fun he => hpne he.symm
        · exact hiff.mp ht q hq'
      · intro hall
        refine hiff.mpr (fun q hq => ?_)
        by_cases hqc : q.1 = cpd
        · exact absurd (List.mem_map.mpr ⟨q, hq, hqc⟩) hnotc
        · exact hall q (Dict.mem_set_of_mem hq hqc)
  · intro p hp q hq hpq
    rcases Dict.mem_of_mem_set hp with rfl | ⟨hp', hpne⟩ <;>
      rcases Dict.mem_of_mem_set hq with rfl | ⟨hq', hqne⟩
    · rfl
    · exact absurd hpq.symm (hnoholder q hq')
    · exact absurd hpq (hnoholder p hp')
    · exact hF p hp' q hq' hpq

/-- The state invariants imply the invariants exactly as claimed. -/
theorem claimInvariants_of_stateInv {s : ColorAssigner} (h : StateInv s) :
    ClaimInvariants s := by
  obtain ⟨hA, hB, hC, hD, hE, hF⟩ := h
  have hget_iff : ∀ (c : String) (col : Color),
      Dict.get? s.compound_to_color c = some col ↔ (c, col) ∈ s.compound_to_color :=
    fun c col => ⟨Dict.get?_mem, Dict.get?_of_mem_nodup hC⟩
  refine ⟨?_, ?_, ?_⟩
  · intro c
    rw [Dict.get?_isSome_iff_mem_keys, Dict.get?_isSome_iff_mem_keys, hB]
  · intro col hcol
    have hk : col ∈ Dict.keys s.color_avaliable := hA.symm ▸ hcol
    rcases Option.isSome_iff_exists.mp ((Dict.get?_isSome_iff_mem_keys _ _).mpr hk) with ⟨b, hb⟩
    have hmem : (col, b) ∈ s.color_avaliable := Dict.get?_mem hb
    have hiff : b = true ↔ ∀ q ∈ s.compound_to_color, q.2 ≠ col := hE (col, b) hmem
    have htrue_iff : Dict.get? s.color_avaliable col = some true ↔ b = true := by
      rw [hb]
      simp
    have hfalse_iff : Dict.get? s.color_avaliable col = some false ↔ b = false := by
      rw [hb]
      simp [eq_comm]
    constructor
    · rw [hfalse_iff]
      constructor
      · intro hbf
        have hex : ∃ q ∈ s.compound_to_color, q.2 = col := by
          by_contra hno
          push_neg at hno
          have hbt : b = true := hiff.mpr hno
          rw [hbt] at hbf
          exact Bool.noConfusion hbf
        rcases hex with ⟨q, hq, hq2⟩
        have hqpair : (q.1, col) ∈ s.compound_to_color := by
          have hqe : q = (q.1, col) := Prod.ext rfl hq2
          rw [← hqe]
          exact hq
        refine ⟨q.1, (hget_iff q.1 col).mpr hqpair, ?_⟩
        intro c' hc'
        exact hF (c', col) ((hget_iff c' col).mp hc') q hq hq2.symm
      · rintro ⟨c, hc, -⟩
        have hq : (c, col) ∈ s.compound_to_color := (hget_iff c col).mp hc
        cases hbv : b
        · rfl
        · exact absurd rfl (hiff.mp hbv (c, col) hq)
    · rw [htrue_iff, hiff]
      constructor
      · intro hall c hc
        exact hall (c, col) ((hget_iff c col).mp hc) rfl
      · intro hall q hq hq2
        exact hall q.1 ((hget_iff q.1 col).mpr (by rw [← hq2]; simpa using hq))
  · intro c₁ c₂ col h1 h2
    exact hF (c₁, col) ((hget_iff c₁ col).mp h1) (c₂, col) ((hget_iff c₂ col).mp h2) rfl

/-- When the sweep finds nothing expired, it is the identity on the state. -/
theorem sweep_no_expired (s : ColorAssigner) (now : ℚ)
    (h : s.expiredCompounds now = []) :
    s.get_compound_to_color_assignments now = some (s.compound_to_color, s) := by
  simp only [get_compound_to_color_assignments, h]
  rfl

/-- Looking up a compound whose assignment is live (within the timeout
window) refreshes its timestamp and returns its existing color. -/
theorem color_for_live {s : ColorAssigner} {now : ℚ} {L : String} {col : Color} {t0 : ℚ}
    (h : StateInv s) (hcol : Dict.get? s.compound_to_color L = some col)
    (ht : Dict.get? s.compound_last_used L = some t0) (hwin : now - t0 ≤ TIMEOUT_SEC) :
    ∃ s2, s.color_for_compound now L = some (Except.ok col, s2) ∧ StateInv s2 ∧
      Dict.get? s2.compound_to_color L = some col ∧
      Dict.get? s2.compound_last_used L = some now := by
  obtain ⟨hA, hB, hC, hD, hE, hF⟩ := h
  have hCu : (Dict.keys s.compound_last_used).Nodup := hB ▸ hC
  rcases sweep_spec s now ⟨hA, hB, hC, hD, hE, hF⟩ with
    ⟨d, s1, hsw, hd, -, htc, hlu, -, -, hinv1⟩
  have hnE : L ∉ s.expiredCompounds now := by
    intro hmem
    rcases (mem_expiredCompounds hCu).mp hmem with ⟨t, ht', hgt⟩
    rw [ht] at ht'
    cases Option.some.inj ht'
    exact absurd hgt (not_lt.mpr hwin)
  have htcL : Dict.get? s1.compound_to_color L = some col := by
    rw [htc L, if_neg hnE]
    exact hcol
  have hdL : Dict.get? d L = some col := by
    rw [hd]
    exact htcL
  rw [color_for_eq s now L hsw, colorDecision_found hdL]
  refine ⟨_, rfl, ?_, htcL, Dict.get?_set_self _ _ _⟩
  exact StateInv_refresh s1 hinv1 L now
    ((Dict.get?_isSome_iff_mem_keys _ _).mp (by rw [htcL]; rfl))

end ColorAssigner

namespace Dict

theorem set_eq_append {α β : Type} [DecidableEq α] (d : Dict α β) {k : α} (v : β)
    (h : Dict.hasKey d k = false) : Dict.set d k v = d ++ [(k, v)] := by
  unfold Dict.set
  rw [if_neg (by simp [h])]

end Dict

namespace ColorAssigner

/-- Constructing `ColorAssigner(_palette)` yields the empty stage. -/
theorem init_eq_stage_nil : ColorAssigner.init modulePalette = stage [] := by decide

/-- Marking palette color `i` unavailable moves the availability split one
slot to the right. -/
theorem avail_step {i : Nat} (hi : i < modulePalette.length) {col : Color}
    (hcol : modulePalette.get? i = some col) :
    Dict.set
      ((modulePalette.take i).map (fun c => (c, false)) ++
        (modulePalette.drop i).map (fun c => (c, true)))
      col false
    = (modulePalette.take (i + 1)).map (fun c => (c, false)) ++
      (modulePalette.drop (i + 1)).map (fun c => (c, true)) := by
  have hi5 : i < 5 := hi
  interval_cases i <;> (obtain rfl := Option.some.inj hcol; decide)

/-- The availability values of a stage: `i` unavailable slots, then all
available. -/
theorem stage_avail_values {i : Nat} (hi : i < modulePalette.length) :
    Dict.values ((modulePalette.take i).map (fun c => (c, false)) ++
      (modulePalette.drop i).map (fun c => (c, true)))
    = List.replicate i false ++ true :: List.replicate (modulePalette.length - i - 1) true := by
  have hi5 : i < 5 := hi
  interval_cases i <;> decide

/-- One fresh allocation from a stage: the next palette color (at index
`pre.length`) is handed out and the stage grows by one entry. -/
theorem fresh_step (pre : List (ℚ × String)) (t : ℚ) (L : String)
    (hlen : pre.length < modulePalette.length)
    (hL : L ∉ pre.map Prod.snd)
    (hwin : ∀ t' ∈ pre.map Prod.fst, t - t' ≤ TIMEOUT_SEC) :
    (stage pre).color_for_compound t L =
      some (Except.ok (modulePalette.get ⟨pre.length, hlen⟩), stage (pre ++ [(t, L)])) := by
  have hexp : (stage pre).expiredCompounds t = [] := by
    unfold expiredCompounds
    rw [List.filter_eq_nil_iff.mpr ?_, List.map_nil]
    intro p hp
    simp only [decide_eq_true_eq, not_lt]
    show t - p.2 ≤ TIMEOUT_SEC
    rcases List.mem_map.mp hp with ⟨c, hc, he⟩
    have ht' : t - c.1 ≤ TIMEOUT_SEC := hwin c.1 (List.mem_map.mpr ⟨c, hc, rfl⟩)
    rw [← he]
    exact ht'
  have hsweep : (stage pre).get_compound_to_color_assignments t =
      some ((stage pre).compound_to_color, stage pre) := sweep_no_expired _ _ hexp
  have hkeys_tc : Dict.keys (stage pre).compound_to_color = pre.map Prod.snd := by
    show Dict.keys ((pre.map Prod.snd).zip (modulePalette.take pre.length)) = pre.map Prod.snd
    unfold Dict.keys
    refine List.map_fst_zip _ _ ?_
    have h5 : modulePalette.length = 5 := rfl
    simp [List.length_take, h5]
    omega
  have htcL : Dict.get? (stage pre).compound_to_color L = none := by
    rw [Dict.get?_eq_none_iff, hkeys_tc]
    exact hL
  have hidx : listIndexTrue (Dict.values (stage pre).color_avaliable) = some pre.length := by
    show listIndexTrue (Dict.values ((modulePalette.take pre.length).map (fun c => (c, false)) ++
      (modulePalette.drop pre.length).map (fun c => (c, true)))) = some pre.length
    rw [stage_avail_values hlen]
    exact listIndexTrue_replicate_append _ _
  have hget : modulePalette.get? pre.length =
      some (modulePalette.get ⟨pre.length, hlen⟩) := List.get?_eq_get hlen
  have hkeys_lu : Dict.keys (pre.map (fun c => (c.2, c.1)) : Dict String ℚ) =
      pre.map Prod.snd := by
    unfold Dict.keys
    rw [List.map_map]
    rfl
  have hklu : Dict.hasKey (pre.map (fun c => (c.2, c.1)) : Dict String ℚ) L = false := by
    rw [Dict.hasKey_eq_false_iff, hkeys_lu]
    exact hL
  have hktc : Dict.hasKey ((pre.map Prod.snd).zip (modulePalette.take pre.length)) L
      = false := by
    rw [Dict.hasKey_eq_false_iff]
    have hk2 : Dict.keys ((pre.map Prod.snd).zip (modulePalette.take pre.length)) =
        pre.map Prod.snd := hkeys_tc
    rw [hk2]
    exact hL
  have h_lu : Dict.set (stage pre).compound_last_used L t =
      (stage (pre ++ [(t, L)])).compound_last_used := by
    show Dict.set (pre.map (fun c => (c.2, c.1))) L t =
      (pre ++ [(t, L)]).map (fun c => (c.2, c.1))
    rw [Dict.set_eq_append (pre.map (fun c => (c.2, c.1))) t hklu, List.map_append]
    rfl
  have htake : modulePalette.take (pre.length + 1) =
      modulePalette.take pre.length ++ [modulePalette.get ⟨pre.length, hlen⟩] := by
    rw [← List.take_concat_get _ _ hlen, List.concat_eq_append]
    rfl
  have h_tc : Dict.set (stage pre).compound_to_color L
        (modulePalette.get ⟨pre.length, hlen⟩) =
      (stage (pre ++ [(t, L)])).compound_to_color := by
    show Dict.set ((pre.map Prod.snd).zip (modulePalette.take pre.length)) L
        (modulePalette.get ⟨pre.length, hlen⟩)
      = ((pre ++ [(t, L)]).map Prod.snd).zip (modulePalette.take ((pre ++ [(t, L)]).length))
    rw [Dict.set_eq_append ((pre.map Prod.snd).zip (modulePalette.take pre.length))
        (modulePalette.get ⟨pre.length, hlen⟩) hktc,
      show (pre ++ [(t, L)]).length = pre.length + 1 by simp,
      List.map_append, htake,
      List.zip_append (by
        have h5 : modulePalette.length = 5 := rfl
        simp [List.length_take, h5]
        omega)]
    rfl
  have h_av : Dict.set (stage pre).color_avaliable
        (modulePalette.get ⟨pre.length, hlen⟩) false =
      (stage (pre ++ [(t, L)])).color_avaliable := by
    show Dict.set
        ((modulePalette.take pre.length).map (fun c => (c, false)) ++
          (modulePalette.drop pre.length).map (fun c => (c, true)))
        (modulePalette.get ⟨pre.length, hlen⟩) false
      = (modulePalette.take ((pre ++ [(t, L)]).length)).map (fun c => (c, false)) ++
        (modulePalette.drop ((pre ++ [(t, L)]).length)).map (fun c => (c, true))
    rw [show (pre ++ [(t, L)]).length = pre.length + 1 by simp]
    exact avail_step hlen hget
  rw [color_for_eq _ _ _ hsweep, colorDecision_alloc htcL hidx hget]
  refine congrArg some (Prod.ext rfl ?_)
  show ColorAssigner.mk (stage pre).stored_palette
      (Dict.set (stage pre).compound_to_color L (modulePalette.get ⟨pre.length, hlen⟩))
      (Dict.set (stage pre).compound_last_used L t)
      (Dict.set (stage pre).color_avaliable (modulePalette.get ⟨pre.length, hlen⟩) false)
    = stage (pre ++ [(t, L)])
  rw [h_tc, h_lu, h_av]
  rfl

end ColorAssigner

namespace ColorAssigner

/-- Running fresh allocations for the labels of `rest` from `stage pre`
(all labels distinct, all times within one timeout window) hands out the
palette colors from index `pre.length` on, in palette order. -/
theorem fresh_run (rest : List (ℚ × String)) :
    ∀ pre : List (ℚ × String),
      pre.length + rest.length ≤ modulePalette.length →
      ((pre ++ rest).map Prod.snd).Nodup →
      (∀ t ∈ (pre ++ rest).map Prod.fst, ∀ t' ∈ (pre ++ rest).map Prod.fst,
        t - t' ≤ TIMEOUT_SEC) →
      ∃ sN, colorForRun (stage pre) rest
        = some (((modulePalette.drop pre.length).take rest.length).map Except.ok, sN) := by
  induction rest with
  | nil =>
    intro pre _ _ _
    exact ⟨stage pre, by simp [colorForRun]⟩
  | cons c rest ih =>
    intro pre hlen hnodup hwin
    obtain ⟨t, L⟩ := c
    have hlt : pre.length < modulePalette.length := by
      simp only [List.length_cons] at hlen
      omega
    have hnd2 : (pre.map Prod.snd ++ L :: rest.map Prod.snd).Nodup := by
      simpa using hnodup
    have hL : L ∉ pre.map Prod.snd := by
      intro hmem
      rcases List.nodup_append.mp hnd2 with ⟨-, -, hdisj⟩
      exact hdisj hmem (List.mem_cons_self _ _)
    have hwin1 : ∀ t' ∈ pre.map Prod.fst, t - t' ≤ TIMEOUT_SEC := by
      intro t' ht'
      refine hwin t (by simp) t' ?_
      simp only [List.map_append, List.mem_append]
      exact Or.inl ht'
    have hstep := fresh_step pre t L hlt hL hwin1
    rcases ih (pre ++ [(t, L)])
        (by simp at hlen ⊢; omega)
        (by rw [List.append_assoc]; simpa using hnodup)
        (by rw [List.append_assoc]; simpa using hwin) with ⟨sN, hrun⟩
    refine ⟨sN, ?_⟩
    have hlist : (modulePalette.drop pre.length).take (rest.length + 1)
        = modulePalette.get ⟨pre.length, hlt⟩ ::
          (modulePalette.drop (pre.length + 1)).take rest.length := by
      rw [List.drop_eq_get_cons hlt]
      rfl
    show (match (stage pre).color_for_compound t L with
      | none => none
      | some (r, s') => (colorForRun s' rest).map (fun p => (r :: p.1, p.2)))
      = some (((modulePalette.drop pre.length).take (rest.length + 1)).map Except.ok, sN)
    rw [hstep]
    show (colorForRun (stage (pre ++ [(t, L)])) rest).map
        (fun p => (Except.ok (modulePalette.get ⟨pre.length, hlt⟩) :: p.1, p.2))
      = some (((modulePalette.drop pre.length).take (rest.length + 1)).map Except.ok, sN)
    rw [hrun, hlist, show (pre ++ [(t, L)]).length = pre.length + 1 by simp]
    rfl

end ColorAssigner

namespace ColorAssigner

/-- Inversion of the decision block of `color_for_compound`: any returned
outcome arises from the refresh branch, the allocation branch, or the
exhaustion branch. -/
theorem colorDecision_cases {s1 : ColorAssigner} {d : Dict String Color} {now : ℚ}
    {cpd : String} {r : Except String Color} {s₂ : ColorAssigner}
    (h : colorDecision s1 d now cpd = some (r, s₂)) :
    (∃ col, Dict.get? d cpd = some col ∧ r = Except.ok col ∧
      s₂ = { s1 with compound_last_used := Dict.set s1.compound_last_used cpd now }) ∨
    (∃ i col, Dict.get? d cpd = none ∧
      listIndexTrue (Dict.values s1.color_avaliable) = some i ∧
      modulePalette.get? i = some col ∧ r = Except.ok col ∧
      s₂ = { s1 with
        color_avaliable := Dict.set s1.color_avaliable col false
        compound_last_used := Dict.set s1.compound_last_used cpd now
        compound_to_color := Dict.set s1.compound_to_color cpd col }) ∨
    (Dict.get? d cpd = none ∧ listIndexTrue (Dict.values s1.color_avaliable) = none ∧
      r = Except.error noAvailableColorsMsg ∧ s₂ = s1) := by
  unfold colorDecision at h
  cases hc : Dict.get? d cpd with
  | some col =>
    simp only [hc, Option.some.injEq, Prod.mk.injEq] at h
    exact Or.inl ⟨col, rfl, h.1.symm, h.2.symm⟩
  | none =>
    simp only [hc] at h
    cases hidx : listIndexTrue (Dict.values s1.color_avaliable) with
    | none =>
      simp only [hidx, Option.some.injEq, Prod.mk.injEq] at h
      exact Or.inr (Or.inr ⟨rfl, rfl, h.1.symm, h.2.symm⟩)
    | some i =>
      simp only [hidx] at h
      cases hcol : modulePalette.get? i with
      | none =>
        simp only [hcol] at h
        exact Option.noConfusion h
      | some col =>
        simp only [hcol, Option.some.injEq, Prod.mk.injEq] at h
        exact Or.inr (Or.inl ⟨i, col, rfl, rfl, hcol, h.1.symm, h.2.symm⟩)

end ColorAssigner

/-- C1: Every operation (`color_for_compound` and
`get_compound_to_color_assignments`) preserves the state invariants: a
label has an entry in the assignment map iff it has an entry in the
last-used-timestamp map; a palette color is unavailable iff exactly one
live label is assigned to it (available iff no label holds it); and no
two simultaneously live labels are assigned the same color. -/
theorem C1_invariants_preserved (s : ColorAssigner) (now : ℚ) (compound : String)
    (h : StateInv s) :
    (∀ d s₁, s.get_compound_to_color_assignments now = some (d, s₁) →
      StateInv s₁ ∧ ClaimInvariants s₁) ∧
    (∀ r s₂, s.color_for_compound now compound = some (r, s₂) →
      StateInv s₂ ∧ ClaimInvariants s₂) := by
  rcases ColorAssigner.sweep_spec s now h with ⟨d, s1, hsw, hd, -, -, -, -, -, hinv1⟩
  constructor
  · intro d' s₁ hsw'
    rw [hsw] at hsw'
    have he := Option.some.inj hsw'
    injection he with h1 h2
    subst h1
    subst h2
    exact ⟨hinv1, ColorAssigner.claimInvariants_of_stateInv hinv1⟩
  · intro r s₂ hcall
    rw [ColorAssigner.color_for_eq s now compound hsw] at hcall
    rcases ColorAssigner.colorDecision_cases hcall with
      ⟨col, hcd, -, rfl⟩ | ⟨i, col, hcd, hidx, hcol, -, rfl⟩ | ⟨-, -, -, rfl⟩
    · rw [hd] at hcd
      have hmem : compound ∈ Dict.keys s1.compound_to_color :=
        (Dict.get?_isSome_iff_mem_keys _ _).mp (by rw [hcd]; rfl)
      have hinv2 := ColorAssigner.StateInv_refresh s1 hinv1 compound now hmem
      exact ⟨hinv2, ColorAssigner.claimInvariants_of_stateInv hinv2⟩
    · rcases ColorAssigner.avail_at_index hinv1.1 hidx with ⟨col', hcol', hav, hmemP, -⟩
      obtain rfl : col = col' := Option.some.inj (hcol.symm.trans hcol')
      rw [hd] at hcd
      have hinv2 := ColorAssigner.StateInv_alloc s1 hinv1 compound now col hcd hav hmemP
      exact ⟨hinv2, ColorAssigner.claimInvariants_of_stateInv hinv2⟩
    · exact ⟨hinv1, ColorAssigner.claimInvariants_of_stateInv hinv1⟩

/-- C2: For every sequence of distinct previously unseen labels of length
at most the palette size, with all call times inside one timeout window
(so no expiry can occur during the sequence), the i-th call returns
`palette[i-1]`; and in general an allocation for a new label returns the
palette color at the first index whose availability value is `true`,
every smaller index being unavailable. -/
theorem C2_palette_order_allocation :
    (∀ calls : List (ℚ × String),
      calls.length ≤ modulePalette.length →
      (calls.map Prod.snd).Nodup →
      (∀ t ∈ calls.map Prod.fst, ∀ t' ∈ calls.map Prod.fst, t - t' ≤ TIMEOUT_SEC) →
      ∃ sN, colorForRun (ColorAssigner.init modulePalette) calls
        = some ((modulePalette.take calls.length).map Except.ok, sN)) ∧
    (∀ (s : ColorAssigner) (now : ℚ) (cpd : String) (d : Dict String Color)
        (s1 : ColorAssigner) (col : Color) (s₂ : ColorAssigner),
      StateInv s →
      s.get_compound_to_color_assignments now = some (d, s1) →
      Dict.get? d cpd = none →
      s.color_for_compound now cpd = some (Except.ok col, s₂) →
      ∃ i, modulePalette.get? i = some col ∧
        List.get? (Dict.values s1.color_avaliable) i = some true ∧
        ∀ j < i, List.get? (Dict.values s1.color_avaliable) j = some false) := by
  constructor
  · intro calls hlen hnodup hwin
    rcases ColorAssigner.fresh_run calls [] (by simpa using hlen) (by simpa using hnodup)
      (by simpa using hwin) with ⟨sN, hrun⟩
    refine ⟨sN, ?_⟩
    rw [ColorAssigner.init_eq_stage_nil, hrun]
    rfl
  · intro s now cpd d s1 col s₂ h hsw hfresh hcall
    rw [ColorAssigner.color_for_eq s now cpd hsw] at hcall
    rcases ColorAssigner.colorDecision_cases hcall with
      ⟨col', hcd, -, -⟩ | ⟨i, col', -, hidx, hcol, hok, -⟩ | ⟨-, -, habs, -⟩
    · rw [hfresh] at hcd
      exact Option.noConfusion hcd
    · obtain rfl : col' = col := by
        injection hok.symm
      rcases listIndexTrue_spec hidx with ⟨-, htrue, hfalse⟩
      exact ⟨i, hcol, htrue, hfalse⟩
    · exact Except.noConfusion habs

/-- C3: When `color_for_compound` is called for a label with no live
assignment and, after the expiry sweep, every palette color is still
held, the call fails with the `NoAvailableColors` error and the state is
exactly as before the call; any error outcome arises exactly this way
(the only failure mode), and under the invariants the call always
returns. -/
theorem C3_exhaustion_is_pure_and_only_failure (s : ColorAssigner) (now : ℚ)
    (compound : String) (h : StateInv s) :
    ∃ d s1, s.get_compound_to_color_assignments now = some (d, s1) ∧
      ((Dict.get? d compound = none ∧ ∀ p ∈ s1.color_avaliable, p.2 = false) →
        s.color_for_compound now compound = some (Except.error noAvailableColorsMsg, s)) ∧
      (∀ r s₂, s.color_for_compound now compound = some (r, s₂) →
        (∃ e, r = Except.error e) →
        r = Except.error noAvailableColorsMsg ∧ s₂ = s ∧ s1 = s ∧
        Dict.get? d compound = none ∧ ∀ p ∈ s1.color_avaliable, p.2 = false) ∧
      (∃ r s₂, s.color_for_compound now compound = some (r, s₂)) := by
  obtain ⟨hA, hB, hC, hD, hE, hF⟩ := h
  rcases ColorAssigner.sweep_spec s now ⟨hA, hB, hC, hD, hE, hF⟩ with
    ⟨d, s1, hsw, hd, -, -, -, hmark, -, hinv1⟩
  have hs1s : (∀ p ∈ s1.color_avaliable, p.2 = false) → s1 = s := by
    intro hall
    have hE_nil : s.expiredCompounds now = [] := by
      by_contra hne
      rcases List.exists_mem_of_ne_nil _ hne with ⟨c, hc⟩
      have hck : c ∈ Dict.keys s.compound_to_color :=
        hB.symm ▸ ColorAssigner.expiredCompounds_subset_keys hc
      rcases Option.isSome_iff_exists.mp
        ((Dict.get?_isSome_iff_mem_keys _ _).mpr hck) with ⟨colc, hcolc⟩
      have htrue : Dict.get? s1.color_avaliable colc = some true :=
        hmark colc ⟨c, hc, hcolc⟩
      have hmem : (colc, true) ∈ s1.color_avaliable := Dict.get?_mem htrue
      exact Bool.noConfusion (hall (colc, true) hmem)
    have hid := ColorAssigner.sweep_no_expired s now hE_nil
    rw [hid] at hsw
    exact (congrArg Prod.snd (Option.some.inj hsw)).symm
  have hcases : ∀ r s₂, s.color_for_compound now compound = some (r, s₂) →
      (∃ e, r = Except.error e) →
      r = Except.error noAvailableColorsMsg ∧ s₂ = s ∧ s1 = s ∧
      Dict.get? d compound = none ∧ ∀ p ∈ s1.color_avaliable, p.2 = false := by
    intro r s₂ hcall ⟨e, he⟩
    rw [ColorAssigner.color_for_eq s now compound hsw] at hcall
    rcases ColorAssigner.colorDecision_cases hcall with
      ⟨col, -, hok, -⟩ | ⟨i, col, -, -, -, hok, -⟩ | ⟨hfr, hidx, hr, hs₂⟩
    · rw [he] at hok
      exact Except.noConfusion hok
    · rw [he] at hok
      exact Except.noConfusion hok
    · have hall : ∀ p ∈ s1.color_avaliable, p.2 = false := by
        intro p hp
        have hb : p.2 ∈ Dict.values s1.color_avaliable :=
          List.mem_map.mpr ⟨p, hp, rfl⟩
        cases hbv : p.2
        · rfl
        · have := listIndexTrue_eq_none.mp hidx p.2 hb
          rw [hbv] at this
          exact Bool.noConfusion this
      have hs1 := hs1s hall
      exact ⟨hr, by rw [hs₂, hs1], hs1, hfr, hall⟩
  refine ⟨d, s1, hsw, ?_, hcases, ?_⟩
  · rintro ⟨hfr, hall⟩
    have hidx : listIndexTrue (Dict.values s1.color_avaliable) = none := by
      rw [listIndexTrue_eq_none]
      intro b hb
      rcases List.mem_map.mp hb with ⟨p, hp, he⟩
      rw [← he]
      exact hall p hp
    rw [ColorAssigner.color_for_eq s now compound hsw,
      ColorAssigner.colorDecision_error hfr hidx, hs1s hall]
  · rw [ColorAssigner.color_for_eq s now compound hsw]
    cases hc : Dict.get? d compound with
    | some col =>
      exact ⟨_, _, ColorAssigner.colorDecision_found hc⟩
    | none =>
      cases hidx : listIndexTrue (Dict.values s1.color_avaliable) with
      | none => exact ⟨_, _, ColorAssigner.colorDecision_error hc hidx⟩
      | some i =>
        rcases ColorAssigner.avail_at_index hinv1.1 hidx with ⟨col, hcol, -, -, -⟩
        exact ⟨_, _, ColorAssigner.colorDecision_alloc hc hidx hcol⟩

/-- C4 (code bug): an assigner constructed with the explicit palette
`[(0, 0, 0)]` still hands out the module-level palette's first color
`(0.9, 0.0, 0.04)`, a color not in the supplied palette: `__init__`
stores its `palette` parameter in `self._palette` but builds
`_color_avaliable` from the module-level `_palette`, and allocation
indexes the module-level `_palette` too, so the constructor parameter
never influences the assignments (and the timeout is the module constant
`TIMEOUT_SEC`, not a constructor parameter at all). -/
theorem C4_constructor_palette_ignored :
    ∃ s₂, (ColorAssigner.init [((0 : ℚ), (0 : ℚ), (0 : ℚ))]).color_for_compound 0 "A"
        = some (Except.ok (Rat.mk' 9 10, 0, Rat.mk' 1 25), s₂) ∧
      ((Rat.mk' 9 10, (0 : ℚ), Rat.mk' 1 25) : Color) ∉
        [((0 : ℚ), (0 : ℚ), (0 : ℚ))] := by
  exact ⟨_, rfl, by decide⟩

/-- C5: For a label with a live assignment, every lookup made within the
timeout window returns the identical color and refreshes the last-used
timestamp to the call time; a chain of lookups at gaps of at most the
timeout therefore keeps the color unchanged over any number of calls,
never letting the assignment expire. -/
theorem C5_idempotent_within_window (s : ColorAssigner) (L : String) (col : Color)
    (t0 : ℚ) (ts : List ℚ) (h : StateInv s)
    (hcol : Dict.get? s.compound_to_color L = some col)
    (ht : Dict.get? s.compound_last_used L = some t0)
    (hchain : List.Chain (fun a b => b - a ≤ TIMEOUT_SEC) t0 ts) :
    ∃ sN, colorForRun s (ts.map (fun t => (t, L)))
        = some (ts.map (fun _ => Except.ok col), sN) ∧
      Dict.get? sN.compound_to_color L = some col ∧
      Dict.get? sN.compound_last_used L = some ((t0 :: ts).getLast (by simp)) := by
  induction ts generalizing s t0 with
  | nil => exact ⟨s, by simp [colorForRun], hcol, ht⟩
  | cons t ts ih =>
    rcases hchain with _ | ⟨hstep, hchain2⟩
    rcases ColorAssigner.color_for_live h hcol ht hstep with ⟨s2, hcall, hinv2, hcol2, ht2⟩
    rcases ih s2 t hinv2 hcol2 ht2 hchain2 with ⟨sN, hrun, hcolN, htN⟩
    refine ⟨sN, ?_, hcolN, ?_⟩
    · show (match s.color_for_compound t L with
        | none => none
        | some (r, s') =>
          (colorForRun s' (ts.map (fun u => (u, L)))).map (fun p => (r :: p.1, p.2)))
        = some (Except.ok col :: ts.map (fun _ => Except.ok col), sN)
      rw [hcall]
      show (colorForRun s2 (ts.map (fun u => (u, L)))).map
          (fun p => (Except.ok col :: p.1, p.2))
        = some (Except.ok col :: ts.map (fun _ => Except.ok col), sN)
      rw [hrun]
      rfl
    · rw [List.getLast_cons (List.cons_ne_nil t ts)]
      exact htN

/-- C6: An assignment not refreshed for strictly longer than the timeout
is removed by the next sweep (both dict entries deleted, its color marked
available again), and any subsequent fresh lookup — for a different label
or for the expired label itself — goes through fresh allocation of the
lowest-index available palette color (which may be the reclaimed one). -/
theorem C6_expiry_reclaims_and_fresh_allocation (s : ColorAssigner) (now : ℚ)
    (L : String) (tL : ℚ) (h : StateInv s)
    (htL : Dict.get? s.compound_last_used L = some tL)
    (hexp : now - tL > TIMEOUT_SEC) :
    ∃ d s1, s.get_compound_to_color_assignments now = some (d, s1) ∧
      Dict.get? s1.compound_to_color L = none ∧
      Dict.get? s1.compound_last_used L = none ∧
      (∀ colL, Dict.get? s.compound_to_color L = some colL →
        Dict.get? s1.color_avaliable colL = some true) ∧
      (∀ M, Dict.get? d M = none →
        ∃ i col s₂, listIndexTrue (Dict.values s1.color_avaliable) = some i ∧
          modulePalette.get? i = some col ∧
          List.get? (Dict.values s1.color_avaliable) i = some true ∧
          (∀ j < i, List.get? (Dict.values s1.color_avaliable) j = some false) ∧
          s.color_for_compound now M = some (Except.ok col, s₂)) := by
  obtain ⟨hA, hB, hC, hD, hE, hF⟩ := h
  have hCu : (Dict.keys s.compound_last_used).Nodup := hB ▸ hC
  rcases ColorAssigner.sweep_spec s now ⟨hA, hB, hC, hD, hE, hF⟩ with
    ⟨d, s1, hsw, hd, -, htc, hlu, hmark, -, hinv1⟩
  have hLE : L ∈ s.expiredCompounds now :=
    (ColorAssigner.mem_expiredCompounds hCu).mpr ⟨tL, htL, hexp⟩
  have hLcol : ∃ colL, Dict.get? s.compound_to_color L = some colL := by
    have hk : L ∈ Dict.keys s.compound_to_color := by
      rw [hB]
      exact (Dict.get?_isSome_iff_mem_keys _ _).mp (by rw [htL]; rfl)
    exact Option.isSome_iff_exists.mp ((Dict.get?_isSome_iff_mem_keys _ _).mpr hk)
  refine ⟨d, s1, hsw, by rw [htc L, if_pos hLE], by rw [hlu L, if_pos hLE],
    fun colL hcolL => hmark colL ⟨L, hLE, hcolL⟩, ?_⟩
  intro M hM
  rcases hLcol with ⟨colL, hcolL⟩
  have htrueL : Dict.get? s1.color_avaliable colL = some true :=
    hmark colL ⟨L, hLE, hcolL⟩
  have hidx : ∃ i, listIndexTrue (Dict.values s1.color_avaliable) = some i := by
    cases hx : listIndexTrue (Dict.values s1.color_avaliable) with
    | some i => exact ⟨i, rfl⟩
    | none =>
      have hmem : (colL, true) ∈ s1.color_avaliable := Dict.get?_mem htrueL
      have : (true : Bool) = false :=
        listIndexTrue_eq_none.mp hx true (List.mem_map.mpr ⟨(colL, true), hmem, rfl⟩)
      exact Bool.noConfusion this
  rcases hidx with ⟨i, hidx⟩
  rcases ColorAssigner.avail_at_index hinv1.1 hidx with ⟨col, hcol, -, -, -⟩
  rcases listIndexTrue_spec hidx with ⟨-, htrue, hfalse⟩
  have hcallM := ColorAssigner.color_for_eq s now M hsw
  rw [ColorAssigner.colorDecision_alloc hM hidx hcol] at hcallM
  exact ⟨i, col, _, hidx, hcol, htrue, hfalse, hcallM⟩

/-- C7: the method `get_compound_to_color_assignments` performs the expiry sweep and
returns exactly the surviving label-to-color dict: the snapshot is the
post-sweep assignment state, contains no expired label, and is exactly
the dict and state on which `color_for_compound` at the same instant
bases its decision. -/
theorem C7_snapshot_is_live_and_decision_state (s : ColorAssigner) (now : ℚ)
    (h : StateInv s) :
    ∃ d s1, s.get_compound_to_color_assignments now = some (d, s1) ∧
      d = s1.compound_to_color ∧
      (∀ c, c ∈ Dict.keys d →
        ∃ t, Dict.get? s1.compound_last_used c = some t ∧ now - t ≤ TIMEOUT_SEC) ∧
      (∀ cpd, s.color_for_compound now cpd = ColorAssigner.colorDecision s1 d now cpd) := by
  obtain ⟨hA, hB, hC, hD, hE, hF⟩ := h
  have hCu : (Dict.keys s.compound_last_used).Nodup := hB ▸ hC
  rcases ColorAssigner.sweep_spec s now ⟨hA, hB, hC, hD, hE, hF⟩ with
    ⟨d, s1, hsw, hd, -, htc, hlu, -, -, -⟩
  refine ⟨d, s1, hsw, hd, ?_, fun cpd => ColorAssigner.color_for_eq s now cpd hsw⟩
  intro c hc
  rw [hd] at hc
  have hcsome := (Dict.get?_isSome_iff_mem_keys s1.compound_to_color c).mpr hc
  rw [htc c] at hcsome
  by_cases hcE : c ∈ s.expiredCompounds now
  · rw [if_pos hcE] at hcsome
    simp at hcsome
  · rw [if_neg hcE] at hcsome
    have hck : c ∈ Dict.keys s.compound_last_used := by
      rw [← hB]
      exact (Dict.get?_isSome_iff_mem_keys _ _).mp hcsome
    rcases Option.isSome_iff_exists.mp
      ((Dict.get?_isSome_iff_mem_keys _ _).mpr hck) with ⟨t, htg⟩
    refine ⟨t, by rw [hlu c, if_neg hcE]; exact htg, ?_⟩
    by_contra hgt
    exact hcE ((ColorAssigner.mem_expiredCompounds hCu).mpr ⟨t, htg, lt_of_not_le hgt⟩)

/-- C8: The expiry boundary is strict: an assignment whose elapsed time
equals the timeout exactly is retained by the sweep (entry, timestamp and
color availability unchanged); removal happens exactly when the elapsed
time strictly exceeds the timeout. -/
theorem C8_expiry_boundary_is_strict (s : ColorAssigner) (now : ℚ) (L : String)
    (tL : ℚ) (h : StateInv s)
    (htL : Dict.get? s.compound_last_used L = some tL)
    (heq : now - tL = TIMEOUT_SEC) :
    ∃ d s1, s.get_compound_to_color_assignments now = some (d, s1) ∧
      L ∉ s.expiredCompounds now ∧
      Dict.get? s1.compound_last_used L = some tL ∧
      Dict.get? s1.compound_to_color L = Dict.get? s.compound_to_color L ∧
      (∀ colL, Dict.get? s.compound_to_color L = some colL →
        Dict.get? s1.color_avaliable colL = Dict.get? s.color_avaliable colL) ∧
      (∀ c, c ∈ s.expiredCompounds now ↔
        ∃ t, Dict.get? s.compound_last_used c = some t ∧ now - t > TIMEOUT_SEC) := by
  obtain ⟨hA, hB, hC, hD, hE, hF⟩ := h
  have hCu : (Dict.keys s.compound_last_used).Nodup := hB ▸ hC
  rcases ColorAssigner.sweep_spec s now ⟨hA, hB, hC, hD, hE, hF⟩ with
    ⟨d, s1, hsw, -, -, htc, hlu, -, hkeep, -⟩
  have hnE : L ∉ s.expiredCompounds now := by
    intro hmem
    rcases (ColorAssigner.mem_expiredCompounds hCu).mp hmem with ⟨t, ht', hgt⟩
    rw [htL] at ht'
    cases Option.some.inj ht'
    rw [heq] at hgt
    exact lt_irrefl _ hgt
  refine ⟨d, s1, hsw, hnE, by rw [hlu L, if_neg hnE]; exact htL,
    by rw [htc L, if_neg hnE], ?_, fun c => ColorAssigner.mem_expiredCompounds hCu⟩
  intro colL hcolL
  refine hkeep colL ?_
  intro c hcE hcolc
  have hLpair : (L, colL) ∈ s.compound_to_color := Dict.get?_mem hcolL
  have hcpair : (c, colL) ∈ s.compound_to_color := Dict.get?_mem hcolc
  have : c = L := hF (c, colL) hcpair (L, colL) hLpair rfl
  exact hnE (this ▸ hcE)

/-- C9: A `color_for_compound` call for `L` leaves every other live
label's state framed: a distinct label `M` with a live (non-expired)
assignment keeps its color, its timestamp and its color's availability,
whichever branch the call for `L` takes. -/
theorem C9_frame_on_other_labels (s : ColorAssigner) (now : ℚ) (L : String)
    (h : StateInv s) (r : Except String Color) (s' : ColorAssigner)
    (hcall : s.color_for_compound now L = some (r, s'))
    (M : String) (hML : M ≠ L) (tM : ℚ) (colM : Color)
    (htM : Dict.get? s.compound_last_used M = some tM)
    (hlive : now - tM ≤ TIMEOUT_SEC)
    (hcolM : Dict.get? s.compound_to_color M = some colM) :
    Dict.get? s'.compound_to_color M = some colM ∧
    Dict.get? s'.compound_last_used M = some tM ∧
    Dict.get? s'.color_avaliable colM = Dict.get? s.color_avaliable colM := by
  obtain ⟨hA, hB, hC, hD, hE, hF⟩ := h
  have hCu : (Dict.keys s.compound_last_used).Nodup := hB ▸ hC
  rcases ColorAssigner.sweep_spec s now ⟨hA, hB, hC, hD, hE, hF⟩ with
    ⟨d, s1, hsw, hd, -, htc, hlu, -, hkeep, hinv1⟩
  have hnE : M ∉ s.expiredCompounds now := by
    intro hmem
    rcases (ColorAssigner.mem_expiredCompounds hCu).mp hmem with ⟨t, ht', hgt⟩
    rw [htM] at ht'
    cases Option.some.inj ht'
    exact absurd hgt (not_lt.mpr hlive)
  have htc1 : Dict.get? s1.compound_to_color M = some colM := by
    rw [htc M, if_neg hnE]
    exact hcolM
  have hlu1 : Dict.get? s1.compound_last_used M = some tM := by
    rw [hlu M, if_neg hnE]
    exact htM
  have hav1 : Dict.get? s1.color_avaliable colM = Dict.get? s.color_avaliable colM := by
    refine hkeep colM ?_
    intro c hcE hcolc
    have hMpair : (M, colM) ∈ s.compound_to_color := Dict.get?_mem hcolM
    have hcpair : (c, colM) ∈ s.compound_to_color := Dict.get?_mem hcolc
    have hcM : c = M := hF (c, colM) hcpair (M, colM) hMpair rfl
    exact hnE (hcM ▸ hcE)
  have havfalse : Dict.get? s.color_avaliable colM = some false := by
    have hcolP : colM ∈ modulePalette := hD (M, colM) (Dict.get?_mem hcolM)
    have hk : colM ∈ Dict.keys s.color_avaliable := hA.symm ▸ hcolP
    rcases Option.isSome_iff_exists.mp
      ((Dict.get?_isSome_iff_mem_keys _ _).mpr hk) with ⟨b, hb⟩
    have hbiff : b = true ↔ ∀ q ∈ s.compound_to_color, q.2 ≠ colM :=
      hE (colM, b) (Dict.get?_mem hb)
    cases hbv : b
    · rw [hbv] at hb
      exact hb
    · exact absurd rfl (hbiff.mp hbv (M, colM) (Dict.get?_mem hcolM))
  rw [ColorAssigner.color_for_eq s now L hsw] at hcall
  rcases ColorAssigner.colorDecision_cases hcall with
    ⟨col, -, -, rfl⟩ | ⟨i, col, -, hidx, hcol, -, rfl⟩ | ⟨-, -, -, rfl⟩
  · exact ⟨htc1, by rw [Dict.get?_set_ne _ _ _ hML]; exact hlu1, hav1⟩
  · rcases ColorAssigner.avail_at_index hinv1.1 hidx with ⟨col', hcol', hav', -, -⟩
    obtain rfl : col = col' := Option.some.inj (hcol.symm.trans hcol')
    have hne : colM ≠ col := by
      intro he
      rw [← he] at hav'
      rw [hav1] at hav'
      rw [havfalse] at hav'
      exact Bool.noConfusion (Option.some.inj hav')
    exact ⟨by rw [Dict.get?_set_ne _ _ _ hML]; exact htc1,
      by rw [Dict.get?_set_ne _ _ _ hML]; exact hlu1,
      by rw [Dict.get?_set_ne _ _ _ hne]; exact hav1⟩
  · exact ⟨htc1, hlu1, hav1⟩

/-- C10: the method `color_for_compound` never raises the exhaustion error for a
label with a live (non-expired) assignment: the lookup succeeds and
returns the existing color, so the error can only occur on the
new-allocation path. -/
theorem C10_live_lookup_never_exhausts (s : ColorAssigner) (now : ℚ) (L : String)
    (col : Color) (tL : ℚ) (h : StateInv s)
    (hcol : Dict.get? s.compound_to_color L = some col)
    (htL : Dict.get? s.compound_last_used L = some tL)
    (hlive : now - tL ≤ TIMEOUT_SEC) :
    ∃ s₂, s.color_for_compound now L = some (Except.ok col, s₂) ∧
      ∀ e s₃, s.color_for_compound now L ≠ some (Except.error e, s₃) := by
  rcases ColorAssigner.color_for_live h hcol htL hlive with ⟨s₂, hc, -, -, -⟩
  refine ⟨s₂, hc, ?_⟩
  intro e s₃ habs
  rw [hc] at habs
  have := Option.some.inj habs
  exact Except.noConfusion (congrArg Prod.fst this)

/-! Concrete witnesses. -/

theorem zero_sub_zero_le_timeout : (0 : ℚ) - 0 ≤ TIMEOUT_SEC := by
  norm_num [TIMEOUT_SEC]

theorem two_sub_zero_gt_timeout : (2 : ℚ) - 0 > TIMEOUT_SEC := by
  norm_num [TIMEOUT_SEC]

theorem one_sub_zero_eq_timeout : (1 : ℚ) - 0 = TIMEOUT_SEC := by
  norm_num [TIMEOUT_SEC]

theorem window_both_zero :
    ∀ t ∈ ([((0 : ℚ), "A"), (0, "B")] : List (ℚ × String)).map Prod.fst,
      ∀ t' ∈ ([((0 : ℚ), "A"), (0, "B")] : List (ℚ × String)).map Prod.fst,
        t - t' ≤ TIMEOUT_SEC := by
  intro t ht t' ht'
  simp at ht ht'
  subst ht
  subst ht'
  norm_num [TIMEOUT_SEC]

theorem chain_zero_one_two :
    List.Chain (fun a b : ℚ => b - a ≤ TIMEOUT_SEC) 0 [1, 2] := by
  simp [List.chain_cons, TIMEOUT_SEC]
  norm_num

theorem C1_witness :
    StateInv (ColorAssigner.init modulePalette) ∧
    (∀ r s₂, (ColorAssigner.init modulePalette).color_for_compound 0 "A" = some (r, s₂) →
      StateInv s₂ ∧ ClaimInvariants s₂) :=
  ⟨by decide,
    (C1_invariants_preserved (ColorAssigner.init modulePalette) 0 "A" (by decide)).2⟩

theorem C2_witness :
    ([((0 : ℚ), "A"), (0, "B")] : List (ℚ × String)).length ≤ modulePalette.length ∧
    ∃ sN, colorForRun (ColorAssigner.init modulePalette) [((0 : ℚ), "A"), (0, "B")]
      = some ((modulePalette.take
          ([((0 : ℚ), "A"), (0, "B")] : List (ℚ × String)).length).map Except.ok, sN) :=
  ⟨by decide,
    C2_palette_order_allocation.1 [((0 : ℚ), "A"), (0, "B")] (by decide) (by decide)
      window_both_zero⟩

theorem C3_witness :
    StateInv (stage [((0 : ℚ), "A"), (0, "B"), (0, "C"), (0, "D"), (0, "E")]) ∧
    ∃ r s₂, (stage [((0 : ℚ), "A"), (0, "B"), (0, "C"), (0, "D"),
        (0, "E")]).color_for_compound 0 "F" = some (r, s₂) := by
  have hinv : StateInv (stage [((0 : ℚ), "A"), (0, "B"), (0, "C"), (0, "D"), (0, "E")]) := by
    decide
  rcases C3_exhaustion_is_pure_and_only_failure _ 0 "F" hinv with ⟨d, s1, hsw, -, -, h3⟩
  exact ⟨hinv, h3⟩

theorem C5_witness :
    StateInv (stage [((0 : ℚ), "A")]) ∧
    ∃ sN, colorForRun (stage [((0 : ℚ), "A")])
        (([1, 2] : List ℚ).map (fun t => (t, "A")))
      = some (([1, 2] : List ℚ).map
          (fun _ => Except.ok ((Rat.mk' 9 10, 0, Rat.mk' 1 25) : Color)), sN) := by
  have hinv : StateInv (stage [((0 : ℚ), "A")]) := by decide
  rcases C5_idempotent_within_window (stage [((0 : ℚ), "A")]) "A"
      (Rat.mk' 9 10, 0, Rat.mk' 1 25) 0 [1, 2] hinv (by decide) (by decide)
      chain_zero_one_two with ⟨sN, hrun, -, -⟩
  exact ⟨hinv, sN, hrun⟩

theorem C6_witness :
    StateInv (stage [((0 : ℚ), "A")]) ∧
    ∃ d s1, (stage [((0 : ℚ), "A")]).get_compound_to_color_assignments 2 = some (d, s1) ∧
      Dict.get? s1.compound_to_color "A" = none := by
  have hinv : StateInv (stage [((0 : ℚ), "A")]) := by decide
  rcases C6_expiry_reclaims_and_fresh_allocation _ 2 "A" 0 hinv (by decide)
    two_sub_zero_gt_timeout with ⟨d, s1, hsw, h1, -, -, -⟩
  exact ⟨hinv, d, s1, hsw, h1⟩

theorem C7_witness :
    StateInv (stage [((0 : ℚ), "A")]) ∧
    ∃ d s1, (stage [((0 : ℚ), "A")]).get_compound_to_color_assignments 0 = some (d, s1) ∧
      d = s1.compound_to_color := by
  have hinv : StateInv (stage [((0 : ℚ), "A")]) := by decide
  rcases C7_snapshot_is_live_and_decision_state _ 0 hinv with ⟨d, s1, hsw, hd, -, -⟩
  exact ⟨hinv, d, s1, hsw, hd⟩

theorem C8_witness :
    StateInv (stage [((0 : ℚ), "A")]) ∧
    ∃ d s1, (stage [((0 : ℚ), "A")]).get_compound_to_color_assignments 1 = some (d, s1) ∧
      Dict.get? s1.compound_last_used "A" = some 0 := by
  have hinv : StateInv (stage [((0 : ℚ), "A")]) := by decide
  rcases C8_expiry_boundary_is_strict _ 1 "A" 0 hinv (by decide)
    one_sub_zero_eq_timeout with ⟨d, s1, hsw, -, h2, -, -, -⟩
  exact ⟨hinv, d, s1, hsw, h2⟩

theorem C9_witness :
    StateInv (stage [((0 : ℚ), "A"), (0, "B")]) ∧
    ∃ r s', (stage [((0 : ℚ), "A"), (0, "B")]).color_for_compound 0 "B" = some (r, s') ∧
      Dict.get? s'.compound_to_color "A" = some (Rat.mk' 9 10, 0, Rat.mk' 1 25) := by
  have hinv : StateInv (stage [((0 : ℚ), "A"), (0, "B")]) := by decide
  have hcolB : Dict.get? (stage [((0 : ℚ), "A"), (0, "B")]).compound_to_color "B"
      = some (Rat.mk' 27 50, Rat.mk' 4 25, Rat.mk' 4 5) := by decide
  have htB : Dict.get? (stage [((0 : ℚ), "A"), (0, "B")]).compound_last_used "B"
      = some (0 : ℚ) := by decide
  rcases ColorAssigner.color_for_live hinv hcolB htB zero_sub_zero_le_timeout with
    ⟨s', hcall, -, -, -⟩
  have hcolA : Dict.get? (stage [((0 : ℚ), "A"), (0, "B")]).compound_to_color "A"
      = some (Rat.mk' 9 10, 0, Rat.mk' 1 25) := by decide
  have htA : Dict.get? (stage [((0 : ℚ), "A"), (0, "B")]).compound_last_used "A"
      = some (0 : ℚ) := by decide
  have hframe := C9_frame_on_other_labels _ 0 "B" hinv _ s' hcall "A" (by decide) 0 _
    htA zero_sub_zero_le_timeout hcolA
  exact ⟨hinv, _, s', hcall, hframe.1⟩

theorem C10_witness :
    StateInv (stage [((0 : ℚ), "A")]) ∧
    ∃ s₂, (stage [((0 : ℚ), "A")]).color_for_compound 0 "A"
      = some (Except.ok ((Rat.mk' 9 10, 0, Rat.mk' 1 25) : Color), s₂) := by
  have hinv : StateInv (stage [((0 : ℚ), "A")]) := by decide
  have hcolA : Dict.get? (stage [((0 : ℚ), "A")]).compound_to_color "A"
      = some (Rat.mk' 9 10, 0, Rat.mk' 1 25) := by decide
  have htA : Dict.get? (stage [((0 : ℚ), "A")]).compound_last_used "A"
      = some (0 : ℚ) := by decide
  rcases C10_live_lookup_never_exhausts _ 0 "A" _ 0 hinv hcolA htA
    zero_sub_zero_le_timeout with ⟨s₂, hc, -⟩
  exact ⟨hinv, s₂, hc⟩
